import Mathlib

/-!
Verification of the canonical event-projection engine
(`crates/matrix-sdk-ui/src/timeline/canonical/`).

The Rust sources are shallowly embedded: `BTreeMap` becomes a sorted
association list, `u64` arithmetic becomes `Nat` with explicit `% 2 ^ 64`
where the counter is incremented, the broadcast channel becomes the list of
deltas sent so far, and each adapter becomes a pure function from an event,
an ordering key and a state to a `Bool × state` pair.
-/

set_option maxHeartbeats 1000000

namespace Canonical

/-- Event identifiers (`ruma::OwnedEventId`), modelled as strings. -/
abbrev EventId := String

/-- User identifiers (`ruma::OwnedUserId`), modelled as strings. -/
abbrev UserId := String

/-- `MilliSecondsSinceUnixEpoch`, modelled as a natural number. -/
abbrev Timestamp := Nat

/-- Stand-in for the external `UtdCause` enum; only `none` is ever
constructed by the adapters, so the payload type is opaque to this
development and modelled as `Nat`. -/
abbrev UtdCause := Nat

/-- `ContentAvailability` from `types.rs`. -/
inductive ContentAvailability
  | Known
  | Encrypted (utd_cause : Option UtdCause)
  | Redacted
deriving DecidableEq

/-- `MessageType` from `types.rs`. -/
inductive MessageType
  | Text
  | Image
  | File
  | Video
  | Audio
deriving DecidableEq

/-- `FormattedBody` from `types.rs`. -/
structure FormattedBody where
  format : String
  body : String
deriving DecidableEq

/-- `MessageContent` from `types.rs`. -/
structure MessageContent where
  msg_type : MessageType
  body : String
  formatted : Option FormattedBody
deriving DecidableEq

/-- `MessageContent::empty` from `types.rs`. -/
def MessageContent.empty : MessageContent :=
  { msg_type := MessageType.Text, body := "", formatted := none }

/-- `MessageContent::redacted` from `types.rs`. -/
def MessageContent.redacted : MessageContent :=
  { msg_type := MessageType.Text, body := "[redacted]", formatted := none }

/-- `CanonicalOrderingKey` from `ordering.rs`: a wrapped `u64` sequence
number.  The underlying value is a `Nat`; every value produced by the store
stays below `2 ^ 64` because the allocation counter is reduced modulo
`2 ^ 64` at the increment. -/
structure CanonicalOrderingKey where
  seq : Nat
deriving DecidableEq

/-- `CanonicalOrderingKey::from_sequence` from `ordering.rs`. -/
def CanonicalOrderingKey.from_sequence (seq : Nat) : CanonicalOrderingKey :=
  { seq := seq }

/-- `CanonicalOrderingKey::as_u64` from `ordering.rs`. -/
def CanonicalOrderingKey.as_u64 (k : CanonicalOrderingKey) : Nat :=
  k.seq

/-- `EditMetadata` from `types.rs`. -/
structure EditMetadata where
  edit_id : EventId
  timestamp : Option Timestamp
  position : CanonicalOrderingKey
deriving DecidableEq

/-- `CanonicalEditState` from `types.rs`. -/
structure CanonicalEditState where
  current_content : MessageContent
  original_content : MessageContent
  edit_chain : List EditMetadata
deriving DecidableEq

/-- `CanonicalMessage` from `types.rs`. -/
structure CanonicalMessage where
  id : EventId
  sender : UserId
  content : MessageContent
  edit_state : Option CanonicalEditState
  ordering_key : CanonicalOrderingKey
  availability : ContentAvailability
  timestamp : Option Timestamp
deriving DecidableEq

/-- `CanonicalDelta` from `delta.rs`. -/
inductive CanonicalDelta
  | Insert (position : CanonicalOrderingKey) (item : CanonicalMessage)
  | Update (position : CanonicalOrderingKey) (item : CanonicalMessage)
  | Remove (position : CanonicalOrderingKey)
  | Reset (items : List CanonicalMessage)
deriving DecidableEq

/-- `BTreeMap` lookup: first binding for the key.  On the key-sorted,
duplicate-free lists produced by `btreeInsert` this is exactly
`BTreeMap::get`. -/
def btreeGet [DecidableEq α] (k : α) : List (α × β) → Option β
  | [] => none
  | (k', v) :: rest => if k = k' then some v else btreeGet k rest

/-- `BTreeMap` insertion into a key-sorted association list: replaces the
binding if the key is present, otherwise inserts at the sorted position. -/
def btreeInsert [LinearOrder α] (k : α) (v : β) : List (α × β) → List (α × β)
  | [] => [(k, v)]
  | (k', v') :: rest =>
    if k < k' then (k, v) :: (k', v') :: rest
    else if k = k' then (k, v) :: rest
    else (k', v') :: btreeInsert k v rest

/-- `BTreeMap` insertion for the string-keyed maps (`event_to_sequence`,
`pending_edits`): replaces the binding if the key is present, otherwise
appends it.  It differs from `btreeInsert` only in where a NEW binding is
placed, i.e. in iteration order — which no embedded operation observes for
these maps (they are only read through `btreeGet`/`btreeRemove`) — and it
has identical lookup semantics while avoiding the string order. -/
def assocInsert [DecidableEq α] (k : α) (v : β) : List (α × β) → List (α × β)
  | [] => [(k, v)]
  | (k', v') :: rest =>
    if k = k' then (k, v) :: rest else (k', v') :: assocInsert k v rest

/-- `BTreeMap::remove` on an association list (drops every binding of the
key; on the duplicate-free lists produced by `btreeInsert` this is the
single-binding removal of `BTreeMap`). -/
def btreeRemove [DecidableEq α] (k : α) (l : List (α × β)) : List (α × β) :=
  l.filter (fun p => p.1 ≠ k)

/-- `CanonicalTimelineState` from `state.rs`.  The broadcast sender is
modelled by `deltas`, the list of deltas sent so far. -/
structure CanonicalTimelineState where
  items : List (Nat × CanonicalMessage)
  event_to_sequence : List (EventId × Nat)
  pending_edits : List (EventId × List EventId)
  deltas : List CanonicalDelta
  next_sequence : Nat
deriving DecidableEq

/-- `CanonicalTimelineState::new` from `state.rs`. -/
def CanonicalTimelineState.new : CanonicalTimelineState :=
  { items := [], event_to_sequence := [], pending_edits := [], deltas := [],
    next_sequence := 0 }

/-- `CanonicalTimelineState::next_ordering_key` from `state.rs`: returns the
current counter value and increments it (`u64` wrap-around made explicit). -/
def CanonicalTimelineState.next_ordering_key (s : CanonicalTimelineState) :
    CanonicalOrderingKey × CanonicalTimelineState :=
  let seq := s.next_sequence
  (CanonicalOrderingKey.from_sequence seq,
   { s with next_sequence := (seq + 1) % 2 ^ 64 })

/-- `CanonicalTimelineState::upsert` from `state.rs`. -/
def CanonicalTimelineState.upsert (s : CanonicalTimelineState)
    (message : CanonicalMessage) : Bool × CanonicalTimelineState :=
  let sequence := message.ordering_key.as_u64
  let event_id := message.id
  let is_new := (btreeGet event_id s.event_to_sequence).isNone
  let delta := if is_new then CanonicalDelta.Insert message.ordering_key message
               else CanonicalDelta.Update message.ordering_key message
  (is_new,
   { s with
       items := btreeInsert sequence message s.items,
       event_to_sequence := assocInsert event_id sequence s.event_to_sequence,
       deltas := s.deltas ++ [delta] })

/-- `CanonicalTimelineState::get_by_event_id` from `state.rs`. -/
def CanonicalTimelineState.get_by_event_id (s : CanonicalTimelineState)
    (event_id : EventId) : Option CanonicalMessage :=
  match btreeGet event_id s.event_to_sequence with
  | none => none
  | some sequence => btreeGet sequence s.items

/-- `CanonicalTimelineState::items` from `state.rs` (the snapshot): all
messages in ordering-key order, i.e. the values of the sorted map. -/
def CanonicalTimelineState.snapshot (s : CanonicalTimelineState) :
    List CanonicalMessage :=
  s.items.map Prod.snd

/-- `CanonicalTimelineState::add_pending_edit` from `state.rs`
(`entry(parent).or_insert_with(Vec::new).push(edit)`). -/
def CanonicalTimelineState.add_pending_edit (s : CanonicalTimelineState)
    (parent_event_id edit_event_id : EventId) : CanonicalTimelineState :=
  let entry := ((btreeGet parent_event_id s.pending_edits).getD []) ++ [edit_event_id]
  { s with pending_edits := assocInsert parent_event_id entry s.pending_edits }

/-- `CanonicalTimelineState::take_pending_edits` from `state.rs`
(`remove(parent).unwrap_or_default()`). -/
def CanonicalTimelineState.take_pending_edits (s : CanonicalTimelineState)
    (parent_event_id : EventId) : List EventId × CanonicalTimelineState :=
  ((btreeGet parent_event_id s.pending_edits).getD [],
   { s with pending_edits := btreeRemove parent_event_id s.pending_edits })

/-- The payload variants of `ruma`'s `MessageType` that the adapters
inspect, reduced to the data the adapters read from them: the plain body
and (for `Text`/`Notice`/`Emote`) the optional formatted body, already in
canonical `FormattedBody` form (the source's conversion of the raw
formatted body is a field-by-field copy). -/
inductive RumaMessageType
  | Text (body : String) (formatted : Option FormattedBody)
  | Notice (body : String) (formatted : Option FormattedBody)
  | Emote (body : String) (formatted : Option FormattedBody)
  | Image (body : String)
  | Video (body : String)
  | Audio (body : String)
  | File (body : String)
  | Other (body : String)
deriving DecidableEq

/-- `ruma` `MessageType::body`: the plain body of any variant. -/
def RumaMessageType.body : RumaMessageType → String
  | .Text b _ => b
  | .Notice b _ => b
  | .Emote b _ => b
  | .Image b => b
  | .Video b => b
  | .Audio b => b
  | .File b => b
  | .Other b => b

/-- `Relation::Replacement` from the event content's `relates_to` field;
`new_content` carries the replacement's `msgtype`
(`RoomMessageEventContentWithoutRelation`). -/
inductive Relation
  | Replacement (event_id : EventId) (new_content : RumaMessageType)
deriving DecidableEq

/-- The shapes of `AnySyncTimelineEvent` matched by the adapters in
`adapters/message.rs` and `adapters/edit.rs`, reduced to the fields those
adapters read.  `OtherEvent` stands for every unmatched shape. -/
inductive SyncEvent
  | RoomMessageOriginal (event_id : EventId) (sender : UserId)
      (origin_server_ts : Timestamp) (msgtype : RumaMessageType)
      (relates_to : Option Relation)
  | RoomMessageRedacted (event_id : EventId) (sender : UserId)
      (origin_server_ts : Timestamp)
  | RoomEncryptedOriginal (event_id : EventId) (sender : UserId)
      (origin_server_ts : Timestamp)
  | RoomEncryptedRedacted (event_id : EventId) (sender : UserId)
      (origin_server_ts : Timestamp)
  | RoomRedactionOriginal (event_id : EventId) (sender : UserId)
      (origin_server_ts : Timestamp) (redacts : Option EventId)
  | RoomRedactionRedacted (event_id : EventId)
  | OtherEvent
deriving DecidableEq

/-- `MessageAdapter::map_message_type` from `adapters/message.rs`. -/
def MessageAdapter.map_message_type : RumaMessageType → MessageType
  | .Text _ _ => MessageType.Text
  | .Notice _ _ => MessageType.Text
  | .Emote _ _ => MessageType.Text
  | .Image _ => MessageType.Image
  | .Video _ => MessageType.Video
  | .Audio _ => MessageType.Audio
  | .File _ => MessageType.File
  | .Other _ => MessageType.Text

/-- `MessageAdapter::extract_formatted` from `adapters/message.rs`. -/
def MessageAdapter.extract_formatted : RumaMessageType → Option FormattedBody
  | .Text _ f => f
  | .Notice _ f => f
  | .Emote _ f => f
  | _ => none

/-- `MessageAdapter::process` from `adapters/message.rs`.  The
`AdapterContext` is passed as the pre-allocated ordering key plus the
state; the returned `Bool` is the handled flag. -/
def MessageAdapter.process (event : SyncEvent) (context_key : CanonicalOrderingKey)
    (s : CanonicalTimelineState) : Bool × CanonicalTimelineState :=
  match event with
  | .RoomMessageOriginal event_id sender ts msgtype _relates_to =>
    let msg_type := MessageAdapter.map_message_type msgtype
    let body := msgtype.body
    let formatted := MessageAdapter.extract_formatted msgtype
    let content : MessageContent := { msg_type := msg_type, body := body, formatted := formatted }
    let canonical_message : CanonicalMessage :=
      { id := event_id, sender := sender, content := content, edit_state := none,
        ordering_key := context_key, availability := ContentAvailability.Known,
        timestamp := some ts }
    let s1 := (s.upsert canonical_message).2
    let s2 := (s1.take_pending_edits event_id).2
    (true, s2)
  | .RoomMessageRedacted event_id sender ts =>
    let canonical_message : CanonicalMessage :=
      { id := event_id, sender := sender, content := MessageContent.redacted,
        edit_state := none, ordering_key := context_key,
        availability := ContentAvailability.Redacted, timestamp := some ts }
    (true, (s.upsert canonical_message).2)
  | .RoomEncryptedOriginal event_id sender ts =>
    let canonical_message : CanonicalMessage :=
      { id := event_id, sender := sender, content := MessageContent.empty,
        edit_state := none, ordering_key := context_key,
        availability := ContentAvailability.Encrypted none, timestamp := some ts }
    (true, (s.upsert canonical_message).2)
  | .RoomEncryptedRedacted event_id sender ts =>
    let canonical_message : CanonicalMessage :=
      { id := event_id, sender := sender, content := MessageContent.redacted,
        edit_state := none, ordering_key := context_key,
        availability := ContentAvailability.Redacted, timestamp := some ts }
    (true, (s.upsert canonical_message).2)
  | .RoomRedactionOriginal _ _ _ redacts =>
    match redacts with
    | some target =>
      match s.get_by_event_id target with
      | some message =>
        let message' : CanonicalMessage :=
          { message with
              content := MessageContent.redacted,
              availability := ContentAvailability.Redacted,
              edit_state := none }
        (true, (s.upsert message').2)
      | none => (true, s)
    | none => (true, s)
  | .RoomRedactionRedacted _ => (false, s)
  | .OtherEvent => (false, s)

/-- `EditAdapter::apply_edit` from `adapters/edit.rs`. -/
def EditAdapter.apply_edit (s : CanonicalTimelineState)
    (parent_event_id edit_event_id : EventId) (new_content : RumaMessageType)
    (timestamp : Option Timestamp) (ordering_key : CanonicalOrderingKey) :
    CanonicalTimelineState :=
  match s.get_by_event_id parent_event_id with
  | none => s.add_pending_edit parent_event_id edit_event_id
  | some message =>
    let msg_type := MessageAdapter.map_message_type new_content
    let body := new_content.body
    let formatted := MessageAdapter.extract_formatted new_content
    let new_message_content : MessageContent :=
      { msg_type := msg_type, body := body, formatted := formatted }
    let edit_metadata : EditMetadata :=
      { edit_id := edit_event_id, timestamp := timestamp, position := ordering_key }
    let message' :=
      match message.edit_state with
      | some edit_state =>
        let edit_state' : CanonicalEditState :=
          { edit_state with
            edit_chain := edit_state.edit_chain ++ [edit_metadata],
            current_content := new_message_content }
        { message with edit_state := some edit_state' }
      | none =>
        let edit_state' : CanonicalEditState :=
          { current_content := new_message_content,
            original_content := message.content,
            edit_chain := [edit_metadata] }
        { message with
            edit_state := some edit_state',
            content := new_message_content }
    (s.upsert message').2

/-- `EditAdapter::process` from `adapters/edit.rs`. -/
def EditAdapter.process (event : SyncEvent) (context_key : CanonicalOrderingKey)
    (s : CanonicalTimelineState) : Bool × CanonicalTimelineState :=
  match event with
  | .RoomMessageOriginal event_id _sender ts _msgtype relates_to =>
    match relates_to with
    | some (.Replacement parent_event_id new_content) =>
      (true, EditAdapter.apply_edit s parent_event_id event_id new_content
               (some ts) context_key)
    | none => (false, s)
  | _ => (false, s)

/-- Modelled from the spec: the adapter pipeline composition of section 4.3
— adapters are tried in fixed order, the edit adapter before the message
adapter, and the first adapter that claims the event stops the pipeline.
The composition itself lives in the (out-of-scope) integration layer and is
not among the sources; both adapters it composes are embedded from the
sources above. -/
def pipeline_process (event : SyncEvent) (context_key : CanonicalOrderingKey)
    (s : CanonicalTimelineState) : Bool × CanonicalTimelineState :=
  let r := EditAdapter.process event context_key s
  if r.1 then r else MessageAdapter.process event context_key r.2

/-- Driver iterating `next_ordering_key` from a fresh store: the state
after `n` allocations. -/
def allocIter : Nat → CanonicalTimelineState
  | 0 => CanonicalTimelineState.new
  | n + 1 => ((allocIter n).next_ordering_key).2

/-- The raw value of the ordering key returned by allocation number `n`
(0-indexed) on one store instance. -/
def keyOfAllocation (n : Nat) : Nat :=
  (((allocIter n).next_ordering_key).1).seq

/-- Well-formedness of a store state, as the store's own operations
establish it: item keys are duplicate-free, every stored message records
the key it is stored under, and every identity-index binding is backed by
an item at the bound key whose identity matches the binding. -/
def WellFormed (s : CanonicalTimelineState) : Prop :=
  (s.items.map Prod.fst).Nodup
  ∧ (∀ p ∈ s.items, p.2.ordering_key.as_u64 = p.1)
  ∧ (∀ q ∈ s.event_to_sequence, ∃ p ∈ s.items, p.1 = q.2 ∧ p.2.id = q.1)

instance (s : CanonicalTimelineState) : Decidable (WellFormed s) := by
  unfold WellFormed
  infer_instance

def c5_message : CanonicalMessage :=
  { id := "$t", sender := "@u",
    content := { msg_type := MessageType.Text, body := "hello", formatted := none },
    edit_state := none, ordering_key := { seq := 0 },
    availability := ContentAvailability.Known, timestamp := none }

def c5_state : CanonicalTimelineState :=
  (CanonicalTimelineState.new.upsert c5_message).2

/-- Modelled from the spec: the upsert-call discipline of sections 2, 4.2
and 8 used by the "stable ordering" property.  A first `upsert` of an
identity carries a freshly allocated ordering key (as the message adapter
builds new canonical messages from the pre-allocated `context.ordering_key`),
and a subsequent update of an identity looks the stored item up and
re-upserts it with mutated content/availability, keeping its stored
ordering key (as the redaction path of the message adapter does).  Every
store operation invoked is the embedded source operation. -/
inductive UpsertOp
  | insert (id : EventId) (sender : UserId) (content : MessageContent)
  | update (id : EventId) (content : MessageContent)
      (availability : ContentAvailability)
deriving DecidableEq

def applyOp (s : CanonicalTimelineState) : UpsertOp → CanonicalTimelineState
  | UpsertOp.insert id sender content =>
    let r := s.next_ordering_key
    (r.2.upsert
      { id := id, sender := sender, content := content, edit_state := none,
        ordering_key := r.1, availability := ContentAvailability.Known,
        timestamp := none }).2
  | UpsertOp.update id content availability =>
    match s.get_by_event_id id with
    | some m =>
      (s.upsert { m with content := content, availability := availability }).2
    | none => s

def runOps (ops : List UpsertOp) : CanonicalTimelineState :=
  ops.foldl applyOp CanonicalTimelineState.new

/-- The identities of the insert operations, in operation order (the
first-insertion order). -/
def insertIds : List UpsertOp → List EventId
  | [] => []
  | UpsertOp.insert id _ _ :: rest => id :: insertIds rest
  | UpsertOp.update _ _ _ :: rest => insertIds rest

/-- Invariant of the driver run: the counter equals the number of inserts
so far, the item keys are exactly `0, …, n-1` in order, the stored
identities in key order are the insert identities in insertion order, each
stored message records its key, and every identity binding is backed by a
matching item. -/
structure DriverInv (ins : List EventId) (s : CanonicalTimelineState) : Prop where
  hcount : s.next_sequence = ins.length
  hkeys : s.items.map Prod.fst = List.range ins.length
  hids : s.items.map (fun p => p.2.id) = ins
  hseq : ∀ p ∈ s.items, p.2.ordering_key.as_u64 = p.1
  hidx : ∀ i k, btreeGet i s.event_to_sequence = some k →
    ∃ mm, btreeGet k s.items = some mm ∧ mm.id = i

theorem btreeGet_assocInsert_self [DecidableEq α] (k : α) (v : β)
    (l : List (α × β)) : btreeGet k (assocInsert k v l) = some v := by
  induction l with
  | nil => simp [assocInsert, btreeGet]
  | cons p rest ih =>
    by_cases h : k = p.1
    · simp [assocInsert, btreeGet, h]
    · simp [assocInsert, btreeGet, h, ih]

theorem btreeGet_assocInsert_ne [DecidableEq α] (k k' : α) (v : β)
    (l : List (α × β)) (h : k' ≠ k) :
    btreeGet k' (assocInsert k v l) = btreeGet k' l := by
  induction l with
  | nil => simp [assocInsert, btreeGet, h]
  | cons p rest ih =>
    by_cases hk : k = p.1
    · subst hk
      simp [assocInsert, btreeGet, h]
    · by_cases hk' : k' = p.1
      · simp [assocInsert, btreeGet, hk, hk']
      · simp [assocInsert, btreeGet, hk, hk', ih]

theorem btreeGet_mem [DecidableEq α] {k : α} {v : β} {l : List (α × β)}
    (h : btreeGet k l = some v) : (k, v) ∈ l := by
  induction l with
  | nil => simp [btreeGet] at h
  | cons p rest ih =>
    by_cases hk : k = p.1
    · subst hk
      simp [btreeGet] at h
      subst h
      exact List.mem_cons_self _ _
    · simp [btreeGet, hk] at h
      exact List.mem_cons_of_mem _ (ih h)

theorem btreeGet_eq_none_of_not_mem [DecidableEq α] {k : α} {l : List (α × β)}
    (h : k ∉ l.map Prod.fst) : btreeGet k l = none := by
  induction l with
  | nil => simp [btreeGet]
  | cons p rest ih =>
    simp only [List.map_cons, List.mem_cons] at h
    push_neg at h
    simp [btreeGet, h.1, ih h.2]

theorem btreeGet_append_left [DecidableEq α] {k : α} {v : β}
    {l₁ : List (α × β)} (l₂ : List (α × β)) (h : btreeGet k l₁ = some v) :
    btreeGet k (l₁ ++ l₂) = some v := by
  induction l₁ with
  | nil => simp [btreeGet] at h
  | cons p rest ih =>
    by_cases hk : k = p.1
    · simp_all [btreeGet]
    · simp [btreeGet, hk] at h ⊢
      exact ih h

theorem btreeGet_append_right [DecidableEq α] {k : α}
    {l₁ : List (α × β)} (l₂ : List (α × β)) (h : btreeGet k l₁ = none) :
    btreeGet k (l₁ ++ l₂) = btreeGet k l₂ := by
  induction l₁ with
  | nil => simp
  | cons p rest ih =>
    by_cases hk : k = p.1
    · simp [btreeGet, hk] at h
    · simp [btreeGet, hk] at h ⊢
      exact ih h

theorem btreeGet_btreeRemove_self [DecidableEq α] (k : α) (l : List (α × β)) :
    btreeGet k (btreeRemove k l) = none := by
  induction l with
  | nil => simp [btreeRemove, btreeGet]
  | cons p rest ih =>
    by_cases hk : p.1 = k
    · simpa [btreeRemove, hk] using ih
    · have hne : k ≠ p.1 := fun h => hk h.symm
      simpa [btreeRemove, hk, btreeGet, hne] using ih

theorem btreeGet_of_mem_of_nodup [DecidableEq α] {k : α} {v : β}
    {l : List (α × β)} (hnd : (l.map Prod.fst).Nodup) (hm : (k, v) ∈ l) :
    btreeGet k l = some v := by
  induction l with
  | nil => simp at hm
  | cons p rest ih =>
    simp only [List.map_cons, List.nodup_cons] at hnd
    rcases List.mem_cons.mp hm with h | h
    · subst h
      simp [btreeGet]
    · have hk : k ≠ p.1 := by
        intro hkp
        exact hnd.1 (hkp ▸ List.mem_map_of_mem Prod.fst h)
      simp [btreeGet, hk]
      exact ih hnd.2 h

theorem btreeGet_btreeInsert_self [LinearOrder α] (k : α) (v : β)
    (l : List (α × β)) : btreeGet k (btreeInsert k v l) = some v := by
  induction l with
  | nil => simp [btreeInsert, btreeGet]
  | cons p rest ih =>
    by_cases hlt : k < p.1
    · simp [btreeInsert, hlt, btreeGet]
    · by_cases heq : k = p.1
      · simp [btreeInsert, hlt, heq, btreeGet]
      · simp [btreeInsert, hlt, heq, btreeGet, ih]

theorem btreeGet_btreeInsert_ne [LinearOrder α] (k k' : α) (v : β)
    (l : List (α × β)) (h : k' ≠ k) :
    btreeGet k' (btreeInsert k v l) = btreeGet k' l := by
  induction l with
  | nil => simp [btreeInsert, btreeGet, h]
  | cons p rest ih =>
    by_cases hlt : k < p.1
    · simp [btreeInsert, hlt, btreeGet, h]
    · by_cases heq : k = p.1
      · subst heq
        simp [btreeInsert, hlt, btreeGet, h]
      · by_cases hk' : k' = p.1
        · simp [btreeInsert, hlt, heq, btreeGet, hk']
        · simp [btreeInsert, hlt, heq, btreeGet, hk', ih]

theorem btreeInsert_append_of_lt [LinearOrder α] (k : α) (v : β)
    (l : List (α × β)) (h : ∀ p ∈ l, p.1 < k) :
    btreeInsert k v l = l ++ [(k, v)] := by
  induction l with
  | nil => simp [btreeInsert]
  | cons p rest ih =>
    have hp : p.1 < k := h p (List.mem_cons_self _ _)
    have h1 : ¬ k < p.1 := not_lt_of_gt hp
    have h2 : k ≠ p.1 := ne_of_gt hp
    simp [btreeInsert, h1, h2]
    exact ih fun q hq => h q (List.mem_cons_of_mem _ hq)

theorem btreeInsert_replace [LinearOrder α] (k : α) (v w : β)
    (l₁ l₂ : List (α × β)) (h₁ : ∀ p ∈ l₁, p.1 < k) :
    btreeInsert k v (l₁ ++ (k, w) :: l₂) = l₁ ++ (k, v) :: l₂ := by
  induction l₁ with
  | nil => simp [btreeInsert, lt_irrefl]
  | cons p rest ih =>
    have hp : p.1 < k := h₁ p (List.mem_cons_self _ _)
    have hlt : ¬ k < p.1 := not_lt_of_gt hp
    have hne : k ≠ p.1 := ne_of_gt hp
    simp [btreeInsert, hlt, hne]
    exact ih fun q hq => h₁ q (List.mem_cons_of_mem _ hq)

theorem btreeGet_split [LinearOrder α] {k : α} {v : β} {l : List (α × β)}
    (hnd : List.Pairwise (· < ·) (l.map Prod.fst))
    (h : btreeGet k l = some v) :
    ∃ l₁ l₂, l = l₁ ++ (k, v) :: l₂ ∧ (∀ p ∈ l₁, p.1 < k)
      ∧ (∀ p ∈ l₂, k < p.1) := by
  induction l with
  | nil => simp [btreeGet] at h
  | cons p rest ih =>
    obtain ⟨pk, pv⟩ := p
    simp only [List.map_cons, List.pairwise_cons] at hnd
    by_cases hk : k = pk
    · simp [btreeGet, hk] at h
      refine ⟨[], rest, by simp [hk, h], by simp, ?_⟩
      intro q hq
      rw [hk]
      exact hnd.1 q.1 (List.mem_map_of_mem Prod.fst hq)
    · simp [btreeGet, hk] at h
      obtain ⟨l₁, l₂, heq, h₁, h₂⟩ := ih hnd.2 h
      refine ⟨(pk, pv) :: l₁, l₂, by simp [heq], ?_, h₂⟩
      intro q hq
      rcases List.mem_cons.mp hq with hq | hq
      · subst hq
        have hkmem : k ∈ rest.map Prod.fst := by
          rw [heq]
          simp
        exact hnd.1 k hkmem
      · exact h₁ q hq

/-- C10: `upsert` does not de-duplicate by identity.  Upserting a second
message with the already-indexed identity `"$a"` but a different ordering
key (1 instead of the stored 0) leaves the previously stored item in the
ordered collection, returns `false`, broadcasts an `Update` delta, and the
snapshot then carries the identity `"$a"` twice — at the old and at the new
ordering key. -/
theorem upsert_does_not_deduplicate :
    (let m1 : CanonicalMessage :=
      { id := "$a", sender := "@u",
        content := { msg_type := MessageType.Text, body := "one", formatted := none },
        edit_state := none, ordering_key := { seq := 0 },
        availability := ContentAvailability.Known, timestamp := none }
    let m2 : CanonicalMessage :=
      { id := "$a", sender := "@u",
        content := { msg_type := MessageType.Text, body := "two", formatted := none },
        edit_state := none, ordering_key := { seq := 1 },
        availability := ContentAvailability.Known, timestamp := none }
    let r := ((CanonicalTimelineState.new.upsert m1).2).upsert m2
    r.1 = false
    ∧ r.2.snapshot = [m1, m2]
    ∧ r.2.deltas = [CanonicalDelta.Insert { seq := 0 } m1,
                    CanonicalDelta.Update { seq := 1 } m2]
    ∧ r.2.snapshot.map (fun m => m.id) = ["$a", "$a"]
    ∧ r.2.snapshot.map (fun m => m.ordering_key.seq) = [0, 1]) := by
  decide

/-- C1 (code bug): re-processing a plain content event for the identity
`"$b"`, previously stored as an encrypted placeholder at ordering key 0,
with a freshly pre-allocated ordering key 1 (the decryption path) does NOT
leave the snapshot showing `"$b"` once with availability `Known` at its
original key.  Instead the stale `Encrypted` placeholder stays at key 0 and
a second item for the same identity appears at key 1 with `Known`; no
snapshot item is both `Known` and at the original key 0. -/
theorem decryption_redelivery_duplicates_item :
    (let s1 := (pipeline_process (SyncEvent.RoomEncryptedOriginal "$b" "@u" 5)
                  { seq := 0 } CanonicalTimelineState.new).2
    let s2 := (pipeline_process
                  (SyncEvent.RoomMessageOriginal "$b" "@u" 6
                    (RumaMessageType.Text "hi" none) none)
                  { seq := 1 } s1).2
    s2.snapshot.map (fun m => (m.id, m.ordering_key.seq, m.availability))
      = [("$b", 0, ContentAvailability.Encrypted none),
         ("$b", 1, ContentAvailability.Known)]
    ∧ ¬ (∃ m ∈ s2.snapshot,
          m.availability = ContentAvailability.Known ∧ m.ordering_key.seq = 0)) := by
  decide

/-- C3 (code bug): redaction is not irreversible.  After `"$a"` is redacted
(availability `Redacted`, content the fixed redacted marker, edit state
cleared), a later plain content event for `"$a"` (the decryption
simulation) makes the identity resolve to availability `Known` again, and a
later edit targeting `"$a"` re-populates its edit state and replaces the
redacted marker content. -/
theorem redaction_not_irreversible :
    (let s1 := (pipeline_process
                  (SyncEvent.RoomMessageOriginal "$a" "@u" 1
                    (RumaMessageType.Text "hello" none) none)
                  { seq := 0 } CanonicalTimelineState.new).2
    let s2 := (pipeline_process
                  (SyncEvent.RoomRedactionOriginal "$r" "@u" 2 (some "$a"))
                  { seq := 1 } s1).2
    let s3 := (pipeline_process
                  (SyncEvent.RoomMessageOriginal "$a" "@u" 3
                    (RumaMessageType.Text "hello again" none) none)
                  { seq := 2 } s2).2
    let s3' := (pipeline_process
                  (SyncEvent.RoomMessageOriginal "$e" "@u" 3
                    (RumaMessageType.Text "fallback" none)
                    (some (Relation.Replacement "$a"
                      (RumaMessageType.Text "edited" none))))
                  { seq := 2 } s2).2
    (s2.get_by_event_id "$a").map
        (fun m => (m.availability, m.content.body, m.edit_state))
      = some (ContentAvailability.Redacted, "[redacted]", none)
    ∧ (s3.get_by_event_id "$a").map (fun m => (m.availability, m.content.body))
      = some (ContentAvailability.Known, "hello again")
    ∧ (s3'.get_by_event_id "$a").map
        (fun m => (m.content.body, m.edit_state.isSome))
      = some ("edited", true)) := by
  decide

/-- C4 (code bug): after a second edit the parent's top-level `content`
field is NOT equal to the latest `current_content`.  With parent `"$p"`
(body `"v0"`) followed by edits `"$e1"` (body `"v1"`) and `"$e2"` (body
`"v2"`), the edit state correctly records the chain `["$e1", "$e2"]`,
`current_content` `"v2"` and `original_content` `"v0"`, and the parent's
ordering key is unchanged — but the parent's `content` is left at `"v1"`,
the first edit's content, diverging from `current_content`. -/
theorem second_edit_leaves_stale_content :
    (let s1 := (pipeline_process
                  (SyncEvent.RoomMessageOriginal "$p" "@u" 1
                    (RumaMessageType.Text "v0" none) none)
                  { seq := 0 } CanonicalTimelineState.new).2
    let s2 := (pipeline_process
                  (SyncEvent.RoomMessageOriginal "$e1" "@u" 2
                    (RumaMessageType.Text "fb1" none)
                    (some (Relation.Replacement "$p"
                      (RumaMessageType.Text "v1" none))))
                  { seq := 1 } s1).2
    let s3 := (pipeline_process
                  (SyncEvent.RoomMessageOriginal "$e2" "@u" 3
                    (RumaMessageType.Text "fb2" none)
                    (some (Relation.Replacement "$p"
                      (RumaMessageType.Text "v2" none))))
                  { seq := 2 } s2).2
    (s3.get_by_event_id "$p").map (fun m => (m.content.body, m.ordering_key.seq))
      = some ("v1", 0)
    ∧ (s3.get_by_event_id "$p").map
        (fun m => m.edit_state.map (fun es =>
            (es.original_content.body, es.current_content.body,
             es.edit_chain.map (fun e => e.edit_id))))
      = some (some ("v0", "v2", ["$e1", "$e2"]))
    ∧ (s3.get_by_event_id "$p").map
        (fun m => m.edit_state.map
          (fun es => decide (m.content = es.current_content)))
      = some (some false)) := by
  decide

/-- C9: processing a plain (non-redacted, non-encrypted) content event
claims the event, stores a canonical message whose content is built only
from the event (`Known` availability, no edit state, the pre-allocated
ordering key), and removes the pending-edit buffer entry for the event's
identity without re-applying it: afterwards the stored message still has
`edit_state = none` and `take_pending_edits` for that identity returns the
empty sequence. -/
theorem plain_message_discards_pending_edits (s : CanonicalTimelineState)
    (event_id : EventId) (sender : UserId) (ts : Timestamp)
    (msgtype : RumaMessageType) (key : CanonicalOrderingKey) :
    (MessageAdapter.process
      (SyncEvent.RoomMessageOriginal event_id sender ts msgtype none) key s).1 = true
    ∧ (MessageAdapter.process
        (SyncEvent.RoomMessageOriginal event_id sender ts msgtype none) key s).2.get_by_event_id
          event_id
      = some
        { id := event_id, sender := sender,
          content :=
            { msg_type := MessageAdapter.map_message_type msgtype,
              body := msgtype.body,
              formatted := MessageAdapter.extract_formatted msgtype },
          edit_state := none, ordering_key := key,
          availability := ContentAvailability.Known, timestamp := some ts }
    ∧ btreeGet event_id (MessageAdapter.process
        (SyncEvent.RoomMessageOriginal event_id sender ts msgtype none) key s).2.pending_edits
      = none
    ∧ ((MessageAdapter.process
        (SyncEvent.RoomMessageOriginal event_id sender ts msgtype none) key s).2.take_pending_edits
          event_id).1
      = [] := by
  refine ⟨rfl, ?_, ?_, ?_⟩
  · simp [MessageAdapter.process, CanonicalTimelineState.upsert,
      CanonicalTimelineState.take_pending_edits, CanonicalTimelineState.get_by_event_id,
      CanonicalOrderingKey.as_u64, btreeGet_assocInsert_self, btreeGet_btreeInsert_self]
  · simp [MessageAdapter.process, CanonicalTimelineState.upsert,
      CanonicalTimelineState.take_pending_edits, btreeGet_btreeRemove_self]
  · simp [MessageAdapter.process, CanonicalTimelineState.upsert,
      CanonicalTimelineState.take_pending_edits, btreeGet_btreeRemove_self]

/-- C6: an edit event whose parent identity is not in the store performs no
mutation of the ordered item collection and emits no delta; the only state
change is appending the edit's identity to the pending-edit buffer entry of
the parent, and the adapter still returns handled = true. -/
theorem edit_unknown_parent_buffers_only (s : CanonicalTimelineState)
    (event_id : EventId) (sender : UserId) (ts : Timestamp)
    (msgtype new_content : RumaMessageType) (parent : EventId)
    (key : CanonicalOrderingKey)
    (h : s.get_by_event_id parent = none) :
    (EditAdapter.process
      (SyncEvent.RoomMessageOriginal event_id sender ts msgtype
        (some (Relation.Replacement parent new_content))) key s).1 = true
    ∧ (EditAdapter.process
        (SyncEvent.RoomMessageOriginal event_id sender ts msgtype
          (some (Relation.Replacement parent new_content))) key s).2.items = s.items
    ∧ (EditAdapter.process
        (SyncEvent.RoomMessageOriginal event_id sender ts msgtype
          (some (Relation.Replacement parent new_content))) key s).2.event_to_sequence
      = s.event_to_sequence
    ∧ (EditAdapter.process
        (SyncEvent.RoomMessageOriginal event_id sender ts msgtype
          (some (Relation.Replacement parent new_content))) key s).2.deltas = s.deltas
    ∧ (EditAdapter.process
        (SyncEvent.RoomMessageOriginal event_id sender ts msgtype
          (some (Relation.Replacement parent new_content))) key s).2.next_sequence
      = s.next_sequence
    ∧ (EditAdapter.process
        (SyncEvent.RoomMessageOriginal event_id sender ts msgtype
          (some (Relation.Replacement parent new_content))) key s).2.pending_edits
      = assocInsert parent
          (((btreeGet parent s.pending_edits).getD []) ++ [event_id]) s.pending_edits := by
  refine ⟨rfl, ?_, ?_, ?_, ?_, ?_⟩ <;>
    simp [EditAdapter.process, EditAdapter.apply_edit, h,
      CanonicalTimelineState.add_pending_edit]

theorem edit_unknown_parent_buffers_only_witness :
    CanonicalTimelineState.new.get_by_event_id "$p" = none
    ∧ (EditAdapter.process
        (SyncEvent.RoomMessageOriginal "$e" "@u" 4 (RumaMessageType.Text "fb" none)
          (some (Relation.Replacement "$p" (RumaMessageType.Text "nv" none))))
        { seq := 0 } CanonicalTimelineState.new).2.pending_edits
      = assocInsert "$p"
          (((btreeGet "$p" CanonicalTimelineState.new.pending_edits).getD []) ++ ["$e"])
          CanonicalTimelineState.new.pending_edits :=
  ⟨by decide,
   (edit_unknown_parent_buffers_only CanonicalTimelineState.new "$e" "@u" 4
      (RumaMessageType.Text "fb" none) (RumaMessageType.Text "nv" none) "$p"
      { seq := 0 } (by decide)).2.2.2.2.2⟩

theorem pending_after_adds (parent : EventId) (adds : List (EventId × EventId)) :
    ∀ t : CanonicalTimelineState,
    (btreeGet parent
        (adds.foldl (fun u pe => u.add_pending_edit pe.1 pe.2) t).pending_edits).getD []
      = (btreeGet parent t.pending_edits).getD []
        ++ (adds.filter (fun pe => pe.1 = parent)).map Prod.snd := by
  induction adds with
  | nil => intro t; simp
  | cons pe rest ih =>
    intro t
    rw [List.foldl_cons, ih]
    by_cases h : pe.1 = parent
    · subst h
      have hb : (btreeGet pe.1 (t.add_pending_edit pe.1 pe.2).pending_edits).getD []
          = (btreeGet pe.1 t.pending_edits).getD [] ++ [pe.2] := by
        simp [CanonicalTimelineState.add_pending_edit, btreeGet_assocInsert_self]
      rw [hb, List.filter_cons, List.append_assoc]
      simp
    · have hb : (btreeGet parent (t.add_pending_edit pe.1 pe.2).pending_edits).getD []
          = (btreeGet parent t.pending_edits).getD [] := by
        simp [CanonicalTimelineState.add_pending_edit,
          btreeGet_assocInsert_ne pe.1 parent _ _ (fun hc => h hc.symm)]
      rw [hb, List.filter_cons]
      simp [h]

/-- C7: `take_pending_edits` returns exactly the edit identities buffered
via `add_pending_edit` for the parent, in the order they were added, and
removes them: a second `take_pending_edits` for the same parent returns the
empty sequence (and a parent with no buffered edits yields the empty
sequence, the `filter` being empty in that case). -/
theorem take_pending_edits_roundtrip (s0 : CanonicalTimelineState)
    (adds : List (EventId × EventId)) (parent : EventId)
    (h : btreeGet parent s0.pending_edits = none) :
    (((adds.foldl (fun u pe => u.add_pending_edit pe.1 pe.2) s0)).take_pending_edits parent).1
      = (adds.filter (fun pe => pe.1 = parent)).map Prod.snd
    ∧ (((((adds.foldl (fun u pe => u.add_pending_edit pe.1 pe.2) s0)).take_pending_edits
          parent).2).take_pending_edits parent).1
      = [] := by
  constructor
  · show (btreeGet parent _).getD [] = _
    rw [pending_after_adds parent adds s0, h]
    simp
  · simp [CanonicalTimelineState.take_pending_edits, btreeGet_btreeRemove_self]

theorem take_pending_edits_roundtrip_witness :
    btreeGet "$p" CanonicalTimelineState.new.pending_edits = none
    ∧ ((([("$p", "$e1"), ("$q", "$e2"), ("$p", "$e3")] : List (EventId × EventId)).foldl
          (fun u pe => u.add_pending_edit pe.1 pe.2)
          CanonicalTimelineState.new).take_pending_edits "$p").1
      = ["$e1", "$e3"]
    ∧ (((([("$p", "$e1"), ("$q", "$e2"), ("$p", "$e3")] : List (EventId × EventId)).foldl
          (fun u pe => u.add_pending_edit pe.1 pe.2)
          CanonicalTimelineState.new).take_pending_edits "$p").2.take_pending_edits "$p").1
      = [] :=
  ⟨by decide,
   (take_pending_edits_roundtrip CanonicalTimelineState.new
      [("$p", "$e1"), ("$q", "$e2"), ("$p", "$e3")] "$p" (by decide)).1.trans (by decide),
   (take_pending_edits_roundtrip CanonicalTimelineState.new
      [("$p", "$e1"), ("$q", "$e2"), ("$p", "$e3")] "$p" (by decide)).2⟩

theorem allocIter_next_sequence (n : Nat) :
    (allocIter n).next_sequence = n % 2 ^ 64 := by
  induction n with
  | zero => simp [allocIter, CanonicalTimelineState.new]
  | succ n ih =>
    show ((allocIter n).next_ordering_key).2.next_sequence = (n + 1) % 2 ^ 64
    simp only [CanonicalTimelineState.next_ordering_key, ih]
    omega

theorem keyOfAllocation_eq (n : Nat) : keyOfAllocation n = n % 2 ^ 64 := by
  simp [keyOfAllocation, CanonicalTimelineState.next_ordering_key,
    CanonicalOrderingKey.from_sequence, allocIter_next_sequence]

/-- C8 counterexample: the ordering-key counter is a wrapping 64-bit
counter, so allocation number `2 ^ 64` returns 0, which is NOT strictly
greater than the value 1 returned by the prior allocation number 1: the
claim fails across wraparound of the `u64` counter. -/
theorem allocation_wraps_at_u64_counterexample :
    keyOfAllocation 1 = 1 ∧ keyOfAllocation (2 ^ 64) = 0
    ∧ ¬ keyOfAllocation 1 < keyOfAllocation (2 ^ 64) := by
  have h1 : keyOfAllocation 1 = 1 := by
    rw [keyOfAllocation_eq]
    norm_num
  have h2 : keyOfAllocation (2 ^ 64) = 0 := by
    rw [keyOfAllocation_eq]
    exact Nat.mod_self _
  exact ⟨h1, h2, by rw [h1, h2]; omega⟩

/-- C8 (amended): every allocation returns a value strictly greater than
every prior allocation's value as long as the store performs fewer than
`2 ^ 64` allocations in its lifetime (i.e. before the `u64` counter wraps
around). -/
theorem allocation_strictly_increasing_before_wrap (m n : Nat)
    (hmn : m < n) (hn : n < 2 ^ 64) :
    keyOfAllocation m < keyOfAllocation n := by
  rw [keyOfAllocation_eq, keyOfAllocation_eq,
    Nat.mod_eq_of_lt (lt_trans hmn hn), Nat.mod_eq_of_lt hn]
  exact hmn

theorem allocation_strictly_increasing_before_wrap_witness :
    1 < 3 ∧ 3 < 2 ^ 64 ∧ keyOfAllocation 1 < keyOfAllocation 3 :=
  ⟨by norm_num, by norm_num,
   allocation_strictly_increasing_before_wrap 1 3 (by norm_num) (by norm_num)⟩

/-- C5: processing a redaction-of-another-event event always claims the
event; if the target identity is present (as message `m`), the store is
mutated exactly by an upsert of `m` with the redacted marker content,
`Redacted` availability and cleared edit state — so the target identity
afterwards resolves to that message, still at `m`'s ordering key, and
exactly one `Update` delta at `m`'s position is broadcast; if the target is
absent, the state (pending buffer and delta log included) is returned
entirely unchanged. -/
theorem redaction_of_other_event_spec (s : CanonicalTimelineState)
    (rid : EventId) (sender : UserId) (ts : Timestamp) (target : EventId)
    (key : CanonicalOrderingKey) (m : CanonicalMessage)
    (hwf : WellFormed s) :
    (MessageAdapter.process (SyncEvent.RoomRedactionOriginal rid sender ts (some target))
        key s).1 = true
    ∧ (s.get_by_event_id target = some m →
        MessageAdapter.process (SyncEvent.RoomRedactionOriginal rid sender ts (some target))
            key s
          = (true, (s.upsert { m with
              content := MessageContent.redacted,
              availability := ContentAvailability.Redacted,
              edit_state := none }).2)
        ∧ (MessageAdapter.process (SyncEvent.RoomRedactionOriginal rid sender ts (some target))
              key s).2.get_by_event_id target
          = some { m with
              content := MessageContent.redacted,
              availability := ContentAvailability.Redacted,
              edit_state := none }
        ∧ (MessageAdapter.process (SyncEvent.RoomRedactionOriginal rid sender ts (some target))
              key s).2.deltas
          = s.deltas ++ [CanonicalDelta.Update m.ordering_key { m with
              content := MessageContent.redacted,
              availability := ContentAvailability.Redacted,
              edit_state := none }])
    ∧ (s.get_by_event_id target = none →
        MessageAdapter.process (SyncEvent.RoomRedactionOriginal rid sender ts (some target))
            key s
          = (true, s)) := by
  refine ⟨?_, ?_, ?_⟩
  · cases hg : s.get_by_event_id target <;> simp [MessageAdapter.process, hg]
  · intro hm
    obtain ⟨k0, hget, hitem⟩ : ∃ k0, btreeGet target s.event_to_sequence = some k0
        ∧ btreeGet k0 s.items = some m := by
      unfold CanonicalTimelineState.get_by_event_id at hm
      cases hget : btreeGet target s.event_to_sequence with
      | none => rw [hget] at hm; exact absurd hm (by simp)
      | some k0 => rw [hget] at hm; exact ⟨k0, rfl, hm⟩
    have hid : m.id = target := by
      obtain ⟨p, hpmem, hp1, hp2⟩ := hwf.2.2 (target, k0) (btreeGet_mem hget)
      have hp1' : p.1 = k0 := hp1
      have hp2' : p.2.id = target := hp2
      have hp_items : (k0, p.2) ∈ s.items := by
        rw [← hp1']
        exact hpmem
      have hpg := btreeGet_of_mem_of_nodup hwf.1 hp_items
      rw [hitem] at hpg
      have hmp : m = p.2 := by
        injection hpg
      rw [hmp]
      exact hp2'
    have hproc : MessageAdapter.process
        (SyncEvent.RoomRedactionOriginal rid sender ts (some target)) key s
        = (true, (s.upsert { m with
            content := MessageContent.redacted,
            availability := ContentAvailability.Redacted,
            edit_state := none }).2) := by
      simp [MessageAdapter.process, hm]
    refine ⟨hproc, ?_, ?_⟩
    · rw [hproc]
      rw [show target = m.id from hid.symm]
      simp [CanonicalTimelineState.upsert, CanonicalTimelineState.get_by_event_id,
        btreeGet_assocInsert_self, btreeGet_btreeInsert_self]
    · rw [hproc]
      have hfalse : (btreeGet m.id s.event_to_sequence).isNone = false := by
        rw [hid, hget]
        rfl
      simp [CanonicalTimelineState.upsert, hfalse]
  · intro hnone
    simp [MessageAdapter.process, hnone]

theorem redaction_of_other_event_spec_witness :
    WellFormed c5_state
    ∧ c5_state.get_by_event_id "$t" = some c5_message
    ∧ (MessageAdapter.process (SyncEvent.RoomRedactionOriginal "$r" "@u" 7 (some "$t"))
        { seq := 1 } c5_state).2.get_by_event_id "$t"
      = some { c5_message with
          content := MessageContent.redacted,
          availability := ContentAvailability.Redacted,
          edit_state := none } :=
  ⟨by decide, by decide,
   ((redaction_of_other_event_spec c5_state "$r" "@u" 7 "$t" { seq := 1 } c5_message
      (by decide)).2.1 (by decide)).2.1⟩

theorem btreeGet_middle_ne [DecidableEq α] {k k0 : α} (hne : k ≠ k0)
    (l₁ l₂ : List (α × β)) (x y : β) :
    btreeGet k (l₁ ++ (k0, x) :: l₂) = btreeGet k (l₁ ++ (k0, y) :: l₂) := by
  cases hg : btreeGet k l₁ with
  | some v => rw [btreeGet_append_left _ hg, btreeGet_append_left _ hg]
  | none =>
    rw [btreeGet_append_right _ hg, btreeGet_append_right _ hg]
    simp [btreeGet, hne]

theorem driverInv_insert (ins : List EventId) (s : CanonicalTimelineState)
    (inv : DriverInv ins s) (hb : ins.length + 1 < 2 ^ 64)
    (i : EventId) (sender : UserId) (content : MessageContent) :
    DriverInv (ins ++ [i]) (applyOp s (UpsertOp.insert i sender content)) := by
  have hkey_lt : ∀ p ∈ s.items, p.1 < ins.length := by
    intro p hp
    have : p.1 ∈ s.items.map Prod.fst := List.mem_map_of_mem Prod.fst hp
    rw [inv.hkeys] at this
    exact List.mem_range.mp this
  have happ : btreeInsert s.next_sequence
      ({ id := i, sender := sender, content := content, edit_state := none,
         ordering_key := CanonicalOrderingKey.from_sequence s.next_sequence,
         availability := ContentAvailability.Known,
         timestamp := none } : CanonicalMessage) s.items
      = s.items ++ [(s.next_sequence,
          { id := i, sender := sender, content := content, edit_state := none,
            ordering_key := CanonicalOrderingKey.from_sequence s.next_sequence,
            availability := ContentAvailability.Known,
            timestamp := none })] :=
    btreeInsert_append_of_lt _ _ _ (fun p hp => inv.hcount ▸ hkey_lt p hp)
  have hred : applyOp s (UpsertOp.insert i sender content)
      = { s with
          next_sequence := (s.next_sequence + 1) % 2 ^ 64,
          items := btreeInsert s.next_sequence
            ({ id := i, sender := sender, content := content, edit_state := none,
               ordering_key := CanonicalOrderingKey.from_sequence s.next_sequence,
               availability := ContentAvailability.Known,
               timestamp := none } : CanonicalMessage) s.items,
          event_to_sequence := assocInsert i s.next_sequence s.event_to_sequence,
          deltas := s.deltas ++
            [if (btreeGet i s.event_to_sequence).isNone then
                CanonicalDelta.Insert (CanonicalOrderingKey.from_sequence s.next_sequence)
                  { id := i, sender := sender, content := content, edit_state := none,
                    ordering_key := CanonicalOrderingKey.from_sequence s.next_sequence,
                    availability := ContentAvailability.Known,
                    timestamp := none }
              else
                CanonicalDelta.Update (CanonicalOrderingKey.from_sequence s.next_sequence)
                  { id := i, sender := sender, content := content, edit_state := none,
                    ordering_key := CanonicalOrderingKey.from_sequence s.next_sequence,
                    availability := ContentAvailability.Known,
                    timestamp := none }] } := rfl
  rw [hred]
  constructor
  · show ((s.next_sequence + 1) % 2 ^ 64) = (ins ++ [i]).length
    rw [inv.hcount, List.length_append]
    exact Nat.mod_eq_of_lt (by simpa using hb)
  · show (btreeInsert _ _ s.items).map Prod.fst = _
    rw [happ, List.map_append, inv.hkeys, inv.hcount, List.length_append]
    simp [List.range_succ]
  · show (btreeInsert _ _ s.items).map (fun p => p.2.id) = _
    rw [happ, List.map_append, inv.hids]
    simp
  · show ∀ p ∈ btreeInsert _ _ s.items, p.2.ordering_key.as_u64 = p.1
    rw [happ]
    intro p hp
    rcases List.mem_append.mp hp with hp | hp
    · exact inv.hseq p hp
    · simp at hp
      rw [hp]
      rfl
  · show ∀ i' k, btreeGet i' (assocInsert i s.next_sequence s.event_to_sequence) = some k → _
    intro i' k h
    by_cases hii : i' = i
    · rw [hii] at h
      rw [btreeGet_assocInsert_self] at h
      injection h with h
      subst h
      refine ⟨{ id := i, sender := sender, content := content, edit_state := none,
                ordering_key := CanonicalOrderingKey.from_sequence s.next_sequence,
                availability := ContentAvailability.Known,
                timestamp := none }, ?_, hii.symm⟩
      rw [happ, btreeGet_append_right]
      · simp [btreeGet]
      · apply btreeGet_eq_none_of_not_mem
        rw [inv.hkeys, inv.hcount]
        simp
    · rw [btreeGet_assocInsert_ne _ _ _ _ hii] at h
      obtain ⟨mm, hmm, hmmid⟩ := inv.hidx i' k h
      exact ⟨mm, by rw [happ]; exact btreeGet_append_left _ hmm, hmmid⟩

theorem driverInv_update (ins : List EventId) (s : CanonicalTimelineState)
    (inv : DriverInv ins s) (i : EventId) (content : MessageContent)
    (availability : ContentAvailability) :
    DriverInv ins (applyOp s (UpsertOp.update i content availability)) := by
  cases hg : s.get_by_event_id i with
  | none =>
    simpa [applyOp, hg] using inv
  | some m =>
    obtain ⟨k0, hget, hitem⟩ : ∃ k0, btreeGet i s.event_to_sequence = some k0
        ∧ btreeGet k0 s.items = some m := by
      unfold CanonicalTimelineState.get_by_event_id at hg
      cases hget : btreeGet i s.event_to_sequence with
      | none => rw [hget] at hg; exact absurd hg (by simp)
      | some k0 => rw [hget] at hg; exact ⟨k0, rfl, hg⟩
    have hid : m.id = i := by
      obtain ⟨mm, hmm, hmmid⟩ := inv.hidx i k0 hget
      rw [hitem] at hmm
      injection hmm with hmm
      rw [← hmm] at hmmid
      exact hmmid
    have hseqm : m.ordering_key.as_u64 = k0 := inv.hseq (k0, m) (btreeGet_mem hitem)
    have hpw : List.Pairwise (· < ·) (s.items.map Prod.fst) := by
      rw [inv.hkeys]
      exact List.sorted_lt_range _
    obtain ⟨l₁, l₂, hsplit, h₁, h₂⟩ := btreeGet_split hpw hitem
    have happ : btreeInsert k0
        ({ m with content := content, availability := availability } : CanonicalMessage)
        s.items
        = l₁ ++ (k0, ({ m with content := content, availability := availability } : CanonicalMessage)) :: l₂ := by
      rw [hsplit]
      exact btreeInsert_replace _ _ _ _ _ h₁
    have hred : applyOp s (UpsertOp.update i content availability)
        = (s.upsert { m with content := content, availability := availability }).2 := by
      simp [applyOp, hg]
    rw [hred]
    have hkey' : ({ m with content := content, availability := availability } : CanonicalMessage).ordering_key.as_u64 = k0 := hseqm
    have hid' : ({ m with content := content, availability := availability } : CanonicalMessage).id = i := hid
    have hu : (s.upsert { m with content := content, availability := availability }).2
        = { s with
            items := btreeInsert k0
              ({ m with content := content, availability := availability } : CanonicalMessage) s.items,
            event_to_sequence := assocInsert i k0 s.event_to_sequence,
            deltas := s.deltas ++
              [if (btreeGet i s.event_to_sequence).isNone then
                  CanonicalDelta.Insert m.ordering_key
                    { m with content := content, availability := availability }
                else
                  CanonicalDelta.Update m.ordering_key
                    { m with content := content, availability := availability }] } := by
      unfold CanonicalTimelineState.upsert
      rw [hkey', hid']
    rw [hu]
    constructor
    · exact inv.hcount
    · show (btreeInsert _ _ s.items).map Prod.fst = _
      rw [happ, ← inv.hkeys, hsplit]
      simp
    · show (btreeInsert _ _ s.items).map (fun p => p.2.id) = _
      rw [happ, ← inv.hids, hsplit]
      simp
    · show ∀ p ∈ btreeInsert _ _ s.items, p.2.ordering_key.as_u64 = p.1
      rw [happ]
      intro p hp
      rcases List.mem_append.mp hp with hp | hp
      · exact inv.hseq p (by rw [hsplit]; exact List.mem_append_left _ hp)
      · rcases List.mem_cons.mp hp with hp | hp
        · rw [hp]
          exact hkey'
        · exact inv.hseq p (by
            rw [hsplit]
            exact List.mem_append_right _ (List.mem_cons_of_mem _ hp))
    · show ∀ i' k, btreeGet i' (assocInsert i k0 s.event_to_sequence) = some k → _
      intro i' k h
      by_cases hii : i' = i
      · subst hii
        rw [btreeGet_assocInsert_self] at h
        injection h with h
        subst h
        refine ⟨{ m with content := content, availability := availability }, ?_, hid'⟩
        rw [happ, btreeGet_append_right]
        · simp [btreeGet]
        · exact btreeGet_eq_none_of_not_mem (by
            intro hmem
            obtain ⟨p, hp, hp1⟩ := List.mem_map.mp hmem
            exact lt_irrefl k0 (hp1 ▸ h₁ p hp))
      · rw [btreeGet_assocInsert_ne _ _ _ _ hii] at h
        obtain ⟨mm, hmm, hmmid⟩ := inv.hidx i' k h
        have hkk0 : k ≠ k0 := by
          intro hk
          rw [hk, hitem] at hmm
          injection hmm with hmm
          rw [← hmm, hid] at hmmid
          exact hii hmmid.symm
        refine ⟨mm, ?_, hmmid⟩
        rw [happ, btreeGet_middle_ne hkk0 l₁ l₂ _ m, ← hsplit]
        exact hmm

theorem runOps_inv (ops : List UpsertOp) :
    ∀ (ins : List EventId) (s : CanonicalTimelineState),
    DriverInv ins s → ins.length + (insertIds ops).length < 2 ^ 64 →
    DriverInv (ins ++ insertIds ops) (ops.foldl applyOp s) := by
  induction ops with
  | nil =>
    intro ins s inv _
    simpa [insertIds] using inv
  | cons op rest ih =>
    intro ins s inv hb
    cases op with
    | insert i sender content =>
      have hlen : (insertIds (UpsertOp.insert i sender content :: rest)).length
          = (insertIds rest).length + 1 := by
        simp [insertIds]
      have hb1 : ins.length + 1 < 2 ^ 64 := by omega
      have inv' := driverInv_insert ins s inv hb1 i sender content
      have hb' : (ins ++ [i]).length + (insertIds rest).length < 2 ^ 64 := by
        rw [List.length_append]
        simp only [List.length_singleton]
        omega
      have hres := ih (ins ++ [i]) _ inv' hb'
      have hl : ins ++ insertIds (UpsertOp.insert i sender content :: rest)
          = (ins ++ [i]) ++ insertIds rest := by
        simp [insertIds]
      rw [List.foldl_cons]
      rw [hl]
      exact hres
    | update i content availability =>
      have inv' := driverInv_update ins s inv i content availability
      have hres := ih ins _ inv' (by
        have : (insertIds (UpsertOp.update i content availability :: rest)).length
            = (insertIds rest).length := by simp [insertIds]
        omega)
      rw [List.foldl_cons]
      have hl : ins ++ insertIds (UpsertOp.update i content availability :: rest)
          = ins ++ insertIds rest := by
        simp [insertIds]
      rw [hl]
      exact hres

/-- C2: for any sequence of driver operations whose insert identities are
distinct and number fewer than `2 ^ 64` (no counter wraparound), the
snapshot after the run lists items in non-decreasing ordering-key order,
and the identity sequence of the snapshot equals the first-insertion order
— no matter how many updates to those items the sequence contains. -/
theorem stable_ordering_of_distinct_inserts (ops : List UpsertOp)
    (hnodup : (insertIds ops).Nodup)
    (hbound : (insertIds ops).length < 2 ^ 64) :
    List.Sorted (· ≤ ·) ((runOps ops).snapshot.map (fun m => m.ordering_key.as_u64))
    ∧ (runOps ops).snapshot.map (fun m => m.id) = insertIds ops := by
  have base : DriverInv [] CanonicalTimelineState.new := by
    constructor
    · rfl
    · rfl
    · rfl
    · intro p hp
      simp [CanonicalTimelineState.new] at hp
    · intro i k h
      simp [CanonicalTimelineState.new, btreeGet] at h
  have inv := runOps_inv ops [] CanonicalTimelineState.new base
    (by simpa using hbound)
  rw [List.nil_append] at inv
  unfold runOps
  constructor
  · have hmap : (List.foldl applyOp CanonicalTimelineState.new ops).snapshot.map
        (fun m => m.ordering_key.as_u64)
        = (List.foldl applyOp CanonicalTimelineState.new ops).items.map Prod.fst := by
      unfold CanonicalTimelineState.snapshot
      rw [List.map_map]
      exact List.map_congr_left (fun p hp => inv.hseq p hp)
    rw [hmap, inv.hkeys]
    exact List.sorted_le_range _
  · show ((List.foldl applyOp CanonicalTimelineState.new ops).items.map Prod.snd).map
        (fun m => m.id) = _
    rw [List.map_map]
    exact inv.hids

theorem stable_ordering_of_distinct_inserts_witness :
    (insertIds [UpsertOp.insert "$a" "@u"
        { msg_type := MessageType.Text, body := "hello", formatted := none },
      UpsertOp.insert "$b" "@u"
        { msg_type := MessageType.Text, body := "hi", formatted := none },
      UpsertOp.update "$a"
        { msg_type := MessageType.Text, body := "bye", formatted := none }
        ContentAvailability.Known]).Nodup
    ∧ (insertIds [UpsertOp.insert "$a" "@u"
        { msg_type := MessageType.Text, body := "hello", formatted := none },
      UpsertOp.insert "$b" "@u"
        { msg_type := MessageType.Text, body := "hi", formatted := none },
      UpsertOp.update "$a"
        { msg_type := MessageType.Text, body := "bye", formatted := none }
        ContentAvailability.Known]).length < 2 ^ 64
    ∧ (runOps [UpsertOp.insert "$a" "@u"
        { msg_type := MessageType.Text, body := "hello", formatted := none },
      UpsertOp.insert "$b" "@u"
        { msg_type := MessageType.Text, body := "hi", formatted := none },
      UpsertOp.update "$a"
        { msg_type := MessageType.Text, body := "bye", formatted := none }
        ContentAvailability.Known]).snapshot.map (fun m => m.id) = ["$a", "$b"] :=
  ⟨by decide, by norm_num [insertIds],
   ((stable_ordering_of_distinct_inserts _ (by decide)
      (by norm_num [insertIds])).2).trans (by decide)⟩

end Canonical
